import Mathlib

/-!
Verification of the LineSegm line-segmentation core: a shallow embedding of
`src/c++/linesegm/src/astar.cpp` (grid adapter, cost model, A* search, path
reconstruction) and `src/c++/linesegm-opencv-v4/src/utils.cpp` (path projector),
with theorems settling the specification claims.

Machine integers of the source are modelled as `ℤ`/`ℕ`; `double` arithmetic on
costs is modelled as exact `ℚ`; the `double` priorities `g + mf·√s` are modelled
exactly by the triple `(g, mf, s)` with an exact decidable order (see `Prio`).
Code whose C++ behavior is undefined (the float-to-int conversion of `INFINITY`,
a read of an uninitialized variable) is modelled as `Option.none`.
-/

namespace LineSegm

/-- A node is a `(row, col)` pair, as `tuple<int, int>` in the source. -/
abbrev Node : Type := ℤ × ℤ

/-- The `Map` struct of astar.cpp: a binarized image `grid` and the vertical
distance field `dmat`, each read through `at<uchar>` (so entries are the byte
values), plus the dimensions used by `in_bounds`. -/
structure Map where
  rows : ℤ
  cols : ℤ
  grid : Node → ℕ
  dmat : Node → ℕ

/-- The eight unit moves, in the fixed order of the `directions` array. -/
def directions : List (ℤ × ℤ) :=
  [(-1, -1), (-1, 0), (-1, 1), (0, -1), (0, 1), (1, -1), (1, 0), (1, 1)]

/-- `Map::in_bounds`: `0 ≤ row < rows ∧ 0 ≤ col < cols`. -/
def in_bounds (m : Map) (node : Node) : Bool :=
  decide (0 ≤ node.1) && decide (node.1 < m.rows) &&
    decide (0 ≤ node.2) && decide (node.2 < m.cols)

/-- `Map::is_wall`: the grid byte at the node equals 0 (ink). -/
def is_wall (m : Map) (node : Node) : Bool :=
  m.grid node == 0

/-- `Map::closest_vertical_obstacle`: returns the dmat byte when it is `< 255`.
On the sentinel 255 the source executes `return INFINITY;` in a function whose
return type is `int`; that float-to-int conversion has no defined value, which
is modelled here as `none`. -/
def closest_vertical_obstacle (m : Map) (node : Node) : Option ℕ :=
  if m.dmat node < 255 then some (m.dmat node) else none

/-- `Map::neighbors`: the eight step-scaled moves in direction order, filtered
by `in_bounds`. -/
def neighbors (m : Map) (node : Node) (step : ℤ) : List Node :=
  (directions.map (fun d => (node.1 + step * d.1, node.2 + step * d.2))).filter
    (fun nb => in_bounds m nb)

/-- Cost term `V`: `abs(row - st_row)`, the vertical deviation from the start row. -/
def V (node start : Node) : ℚ :=
  ((|node.1 - start.1| : ℤ) : ℚ)

/-- Cost term `N`: 10 when current and neighbor share a row or a column, else 14. -/
def N (current neighbor : Node) : ℚ :=
  if current.1 = neighbor.1 ∨ current.2 = neighbor.2 then 10 else 14

/-- Cost term `M`: 1 on ink (`is_wall`), else 0. -/
def M (m : Map) (node : Node) : ℚ :=
  if is_wall m node then 1 else 0

/-- Cost terms `D`: `(1/(1+min), 1/(1+min²))` where `min` is the clearance;
undefined (`none`) when `closest_vertical_obstacle` has no defined value. -/
def D (m : Map) (node : Node) : Option (ℚ × ℚ) :=
  (closest_vertical_obstacle m node).map
    (fun (dist : ℕ) => (1 / (1 + (dist : ℚ)), 1 / (1 + (dist : ℚ) ^ 2)))

/-- `compute_cost`: the dataset-weighted sum of the five cost terms. -/
def compute_cost (m : Map) (current neighbor start : Node) (dataset : String) :
    Option ℚ :=
  (D m neighbor).map (fun ds =>
    if dataset = "MLS" then
      2.5 * V neighbor start + 1 * N current neighbor + 50 * M m neighbor +
        130 * ds.1 + 0 * ds.2
    else
      0.5 * V neighbor start + 1 * N current neighbor + 50 * M m neighbor +
        150 * ds.1 + 50 * ds.2)

example :
    compute_cost ⟨2, 2, fun _ => 255, fun _ => 0⟩ (0, 0) (0, 1) (0, 0) "x" =
      some 210 := by
  with_unfolding_all rfl

example :
    compute_cost ⟨2, 2, fun _ => 255, fun _ => 255⟩ (0, 0) (0, 1) (0, 0) "x" =
      none := by
  with_unfolding_all rfl

/-! ## Exact priorities

The C++ priority queue holds `double` priorities of the form `g + mf·√s` with
`g` a sum of cost terms (rational) and `s` a sum of two integer squares.  They
are modelled exactly: a priority is the triple `(q, c, s)` denoting the real
number `q + c·√s`, and the queue's comparison is decided exactly by squaring. -/

/-- Exact representation of the real priority `q + c·√s`. -/
structure Prio where
  q : ℚ
  c : ℤ
  s : ℕ

/-- The real number a `Prio` denotes. -/
noncomputable def Prio.toReal (p : Prio) : ℝ :=
  (p.q : ℝ) + (p.c : ℝ) * Real.sqrt (p.s : ℝ)

/-- Decide `√A ≤ r + √B` for `0 ≤ A`, `0 ≤ B`, by squaring twice. -/
def sqrtLeAdd (A B r : ℚ) : Bool :=
  if 0 ≤ r then
    decide (A - r ^ 2 - B ≤ 0) || decide ((A - r ^ 2 - B) ^ 2 ≤ 4 * r ^ 2 * B)
  else
    decide (0 ≤ B - A - r ^ 2) && decide (4 * r ^ 2 * A ≤ (B - A - r ^ 2) ^ 2)

/-- Decide `√A + √B ≤ r` for `0 ≤ A`, `0 ≤ B`. -/
def sqrtAddLe (A B r : ℚ) : Bool :=
  decide (0 ≤ r) && decide (0 ≤ r ^ 2 - A - B) &&
    decide (4 * A * B ≤ (r ^ 2 - A - B) ^ 2)

/-- Decide `-√A ≤ r + √B`, i.e. `-r ≤ √A + √B`, for `0 ≤ A`, `0 ≤ B`. -/
def negSqrtLeAdd (A B r : ℚ) : Bool :=
  decide (0 ≤ r) || decide (r ^ 2 - A - B ≤ 0) ||
    decide ((r ^ 2 - A - B) ^ 2 ≤ 4 * A * B)

/-- Decide `c₁·√s₁ ≤ r + c₂·√s₂`, splitting on the signs of the coefficients
(`c·√s = ±√(c²·s)`). -/
def rootsLe (c₁ : ℤ) (s₁ : ℕ) (c₂ : ℤ) (s₂ : ℕ) (r : ℚ) : Bool :=
  if 0 ≤ c₁ then
    if 0 ≤ c₂ then
      sqrtLeAdd ((c₁ : ℚ) ^ 2 * (s₁ : ℚ)) ((c₂ : ℚ) ^ 2 * (s₂ : ℚ)) r
    else
      sqrtAddLe ((c₁ : ℚ) ^ 2 * (s₁ : ℚ)) ((c₂ : ℚ) ^ 2 * (s₂ : ℚ)) r
  else
    if 0 ≤ c₂ then
      negSqrtLeAdd ((c₁ : ℚ) ^ 2 * (s₁ : ℚ)) ((c₂ : ℚ) ^ 2 * (s₂ : ℚ)) r
    else
      sqrtLeAdd ((c₂ : ℚ) ^ 2 * (s₂ : ℚ)) ((c₁ : ℚ) ^ 2 * (s₁ : ℚ)) r

/-- Exact decision of `toReal p₁ ≤ toReal p₂`. -/
def Prio.ble (p₁ p₂ : Prio) : Bool :=
  rootsLe p₁.c p₁.s p₂.c p₂.s (p₂.q - p₁.q)

theorem mul_sqrt_eq {c B : ℝ} (hc : 0 ≤ c) :
    c * Real.sqrt B = Real.sqrt (c ^ 2 * B) := by
  rw [Real.sqrt_mul (sq_nonneg c), Real.sqrt_sq hc]

theorem sqrtLeAdd_iff {A B : ℚ} (r : ℚ) (hA : 0 ≤ A) (hB : 0 ≤ B) :
    sqrtLeAdd A B r = true ↔
      Real.sqrt (A : ℝ) ≤ (r : ℝ) + Real.sqrt (B : ℝ) := by
  have hA' : (0 : ℝ) ≤ (A : ℝ) := by exact_mod_cast hA
  have hB' : (0 : ℝ) ≤ (B : ℝ) := by exact_mod_cast hB
  have hx : (0 : ℝ) ≤ Real.sqrt (A : ℝ) := Real.sqrt_nonneg _
  have hy : (0 : ℝ) ≤ Real.sqrt (B : ℝ) := Real.sqrt_nonneg _
  unfold sqrtLeAdd
  by_cases hr : 0 ≤ r
  · have hr' : (0 : ℝ) ≤ (r : ℝ) := by exact_mod_cast hr
    rw [if_pos hr]
    simp only [Bool.or_eq_true, decide_eq_true_eq]
    have h2r : 2 * (r : ℝ) * Real.sqrt (B : ℝ) =
        Real.sqrt (4 * (r : ℝ) ^ 2 * (B : ℝ)) := by
      rw [mul_sqrt_eq (by linarith : (0 : ℝ) ≤ 2 * (r : ℝ))]
      rw [show (2 * (r : ℝ)) ^ 2 * (B : ℝ) = 4 * (r : ℝ) ^ 2 * (B : ℝ) by ring]
    have hiff : Real.sqrt (A : ℝ) ≤ (r : ℝ) + Real.sqrt (B : ℝ) ↔
        (A : ℝ) - (r : ℝ) ^ 2 - (B : ℝ) ≤
          Real.sqrt (4 * (r : ℝ) ^ 2 * (B : ℝ)) := by
      rw [Real.sqrt_le_iff]
      constructor
      · rintro ⟨-, h2⟩
        rw [add_sq, Real.sq_sqrt hB'] at h2
        rw [← h2r]
        linarith
      · intro h2
        refine ⟨by linarith, ?_⟩
        rw [add_sq, Real.sq_sqrt hB']
        rw [← h2r] at h2
        linarith
    rw [hiff]
    constructor
    · rintro (h | h)
      · have h' : ((A - r ^ 2 - B : ℚ) : ℝ) ≤ ((0 : ℚ) : ℝ) :=
          Rat.cast_le.2 h
        push_cast at h'
        exact le_trans (by linarith) (Real.sqrt_nonneg _)
      · have h' : (((A - r ^ 2 - B) ^ 2 : ℚ) : ℝ) ≤ ((4 * r ^ 2 * B : ℚ) : ℝ) :=
          Rat.cast_le.2 h
        push_cast at h'
        apply Real.le_sqrt_of_sq_le
        linarith
    · intro h
      by_cases he : A - r ^ 2 - B ≤ 0
      · exact Or.inl he
      · right
        push_neg at he
        have he' : ((0 : ℚ) : ℝ) < ((A - r ^ 2 - B : ℚ) : ℝ) :=
          Rat.cast_lt.2 he
        rw [Rat.cast_zero] at he'
        have he2 : (0 : ℝ) < (A : ℝ) - (r : ℝ) ^ 2 - (B : ℝ) := by
          push_cast at he'
          linarith
        have hsq := (Real.le_sqrt' he2).1 (by linarith)
        have hcast : (((A - r ^ 2 - B) ^ 2 : ℚ) : ℝ) ≤
            ((4 * r ^ 2 * B : ℚ) : ℝ) := by
          push_cast
          nlinarith [hsq]
        exact_mod_cast hcast
  · have hrx : ¬ (0 : ℝ) ≤ (r : ℝ) := by
      intro hcon
      exact hr (by exact_mod_cast hcon)
    have hr' : (r : ℝ) < 0 := lt_of_not_ge hrx
    rw [if_neg hr]
    simp only [Bool.and_eq_true, decide_eq_true_eq]
    have h2r : (-2) * (r : ℝ) * Real.sqrt (A : ℝ) =
        Real.sqrt (4 * (r : ℝ) ^ 2 * (A : ℝ)) := by
      rw [mul_sqrt_eq (by linarith : (0 : ℝ) ≤ (-2) * (r : ℝ))]
      rw [show ((-2) * (r : ℝ)) ^ 2 * (A : ℝ) = 4 * (r : ℝ) ^ 2 * (A : ℝ) by
        ring]
    have hiff : Real.sqrt (A : ℝ) ≤ (r : ℝ) + Real.sqrt (B : ℝ) ↔
        Real.sqrt (4 * (r : ℝ) ^ 2 * (A : ℝ)) ≤
          (B : ℝ) - (A : ℝ) - (r : ℝ) ^ 2 := by
      constructor
      · intro h
        have hnn : (0 : ℝ) ≤ Real.sqrt (A : ℝ) - (r : ℝ) := by linarith
        have hsub : Real.sqrt (A : ℝ) - (r : ℝ) ≤ Real.sqrt (B : ℝ) := by
          linarith
        have hsq : (Real.sqrt (A : ℝ) - (r : ℝ)) ^ 2 ≤ (B : ℝ) := by
          rcases eq_or_lt_of_le hnn with heq | hlt
          · nlinarith [hsub, hy]
          · exact (Real.le_sqrt' hlt).1 hsub
        rw [sub_sq, Real.sq_sqrt hA'] at hsq
        rw [← h2r]
        linarith
      · intro h
        have hsq : (Real.sqrt (A : ℝ) - (r : ℝ)) ^ 2 ≤ (B : ℝ) := by
          rw [sub_sq, Real.sq_sqrt hA']
          rw [← h2r] at h
          linarith
        have hnn : (0 : ℝ) ≤ Real.sqrt (A : ℝ) - (r : ℝ) := by linarith
        have hle := Real.le_sqrt_of_sq_le hsq
        linarith
    rw [hiff, Real.sqrt_le_iff]
    constructor
    · rintro ⟨h1, h2⟩
      have h1' : ((0 : ℚ) : ℝ) ≤ ((B - A - r ^ 2 : ℚ) : ℝ) := Rat.cast_le.2 h1
      have h2' : ((4 * r ^ 2 * A : ℚ) : ℝ) ≤ (((B - A - r ^ 2) ^ 2 : ℚ) : ℝ) :=
        Rat.cast_le.2 h2
      push_cast at h1' h2'
      refine ⟨by linarith, by nlinarith [h2']⟩
    · rintro ⟨h1, h2⟩
      have h1' : ((0 : ℚ) : ℝ) ≤ ((B - A - r ^ 2 : ℚ) : ℝ) := by
        push_cast
        linarith
      have h2' : ((4 * r ^ 2 * A : ℚ) : ℝ) ≤ (((B - A - r ^ 2) ^ 2 : ℚ) : ℝ) := by
        push_cast
        nlinarith [h2]
      exact ⟨by exact_mod_cast h1', by exact_mod_cast h2'⟩

theorem sqrtAddLe_iff {A B : ℚ} (r : ℚ) (hA : 0 ≤ A) (hB : 0 ≤ B) :
    sqrtAddLe A B r = true ↔
      Real.sqrt (A : ℝ) + Real.sqrt (B : ℝ) ≤ (r : ℝ) := by
  have hA' : (0 : ℝ) ≤ (A : ℝ) := by exact_mod_cast hA
  have hB' : (0 : ℝ) ≤ (B : ℝ) := by exact_mod_cast hB
  have hx : (0 : ℝ) ≤ Real.sqrt (A : ℝ) := Real.sqrt_nonneg _
  have hy : (0 : ℝ) ≤ Real.sqrt (B : ℝ) := Real.sqrt_nonneg _
  have hAB : 2 * Real.sqrt (A : ℝ) * Real.sqrt (B : ℝ) =
      Real.sqrt (4 * ((A : ℝ) * (B : ℝ))) := by
    rw [mul_assoc, ← Real.sqrt_mul hA']
    rw [mul_sqrt_eq (by norm_num : (0 : ℝ) ≤ (2 : ℝ))]
    rw [show (2 : ℝ) ^ 2 * ((A : ℝ) * (B : ℝ)) = 4 * ((A : ℝ) * (B : ℝ)) by
      ring]
  unfold sqrtAddLe
  simp only [Bool.and_eq_true, decide_eq_true_eq]
  constructor
  · rintro ⟨⟨h1, h2⟩, h3⟩
    have hr' : (0 : ℝ) ≤ (r : ℝ) := by exact_mod_cast h1
    have h2' : ((0 : ℚ) : ℝ) ≤ ((r ^ 2 - A - B : ℚ) : ℝ) := Rat.cast_le.2 h2
    have h3' : ((4 * A * B : ℚ) : ℝ) ≤ (((r ^ 2 - A - B) ^ 2 : ℚ) : ℝ) :=
      Rat.cast_le.2 h3
    push_cast at h2' h3'
    have hs : Real.sqrt (4 * ((A : ℝ) * (B : ℝ))) ≤
        (r : ℝ) ^ 2 - (A : ℝ) - (B : ℝ) :=
      Real.sqrt_le_iff.2 ⟨by linarith, by nlinarith [h3']⟩
    rw [← hAB] at hs
    have hsum : (Real.sqrt (A : ℝ) + Real.sqrt (B : ℝ)) ^ 2 ≤ (r : ℝ) ^ 2 := by
      rw [add_sq, Real.sq_sqrt hA', Real.sq_sqrt hB']
      linarith
    nlinarith [hsum, hx, hy, hr']
  · intro h
    have hr' : (0 : ℝ) ≤ (r : ℝ) := le_trans (by linarith) h
    have hsum : (Real.sqrt (A : ℝ) + Real.sqrt (B : ℝ)) ^ 2 ≤ (r : ℝ) ^ 2 := by
      nlinarith [h, hx, hy]
    rw [add_sq, Real.sq_sqrt hA', Real.sq_sqrt hB'] at hsum
    rw [hAB] at hsum
    have hs : Real.sqrt (4 * ((A : ℝ) * (B : ℝ))) ≤
        (r : ℝ) ^ 2 - (A : ℝ) - (B : ℝ) := by linarith
    obtain ⟨he0, he2⟩ := Real.sqrt_le_iff.1 hs
    refine ⟨⟨by exact_mod_cast hr', ?_⟩, ?_⟩
    · have hcast : ((0 : ℚ) : ℝ) ≤ ((r ^ 2 - A - B : ℚ) : ℝ) := by
        push_cast
        linarith
      exact_mod_cast hcast
    · have hcast : ((4 * A * B : ℚ) : ℝ) ≤ (((r ^ 2 - A - B) ^ 2 : ℚ) : ℝ) := by
        push_cast
        nlinarith [he2]
      exact_mod_cast hcast

theorem negSqrtLeAdd_iff {A B : ℚ} (r : ℚ) (hA : 0 ≤ A) (hB : 0 ≤ B) :
    negSqrtLeAdd A B r = true ↔
      -Real.sqrt (A : ℝ) ≤ (r : ℝ) + Real.sqrt (B : ℝ) := by
  have hA' : (0 : ℝ) ≤ (A : ℝ) := by exact_mod_cast hA
  have hB' : (0 : ℝ) ≤ (B : ℝ) := by exact_mod_cast hB
  have hx : (0 : ℝ) ≤ Real.sqrt (A : ℝ) := Real.sqrt_nonneg _
  have hy : (0 : ℝ) ≤ Real.sqrt (B : ℝ) := Real.sqrt_nonneg _
  have hAB : 2 * Real.sqrt (A : ℝ) * Real.sqrt (B : ℝ) =
      Real.sqrt (4 * ((A : ℝ) * (B : ℝ))) := by
    rw [mul_assoc, ← Real.sqrt_mul hA']
    rw [mul_sqrt_eq (by norm_num : (0 : ℝ) ≤ (2 : ℝ))]
    rw [show (2 : ℝ) ^ 2 * ((A : ℝ) * (B : ℝ)) = 4 * ((A : ℝ) * (B : ℝ)) by
      ring]
  unfold negSqrtLeAdd
  simp only [Bool.or_eq_true, decide_eq_true_eq]
  constructor
  · rintro ((h | h) | h)
    · have hr' : (0 : ℝ) ≤ (r : ℝ) := by exact_mod_cast h
      linarith
    · have h' : ((r ^ 2 - A - B : ℚ) : ℝ) ≤ ((0 : ℚ) : ℝ) := Rat.cast_le.2 h
      push_cast at h'
      by_contra hcon
      push_neg at hcon
      have hS : Real.sqrt (A : ℝ) + Real.sqrt (B : ℝ) < -(r : ℝ) := by
        linarith
      have hsq : (Real.sqrt (A : ℝ) + Real.sqrt (B : ℝ)) *
          (Real.sqrt (A : ℝ) + Real.sqrt (B : ℝ)) < (-(r : ℝ)) * (-(r : ℝ)) :=
        mul_self_lt_mul_self (by positivity) hS
      nlinarith [hsq, mul_nonneg hx hy, h', Real.mul_self_sqrt hA',
        Real.mul_self_sqrt hB']
    · have h' : (((r ^ 2 - A - B) ^ 2 : ℚ) : ℝ) ≤ ((4 * A * B : ℚ) : ℝ) :=
        Rat.cast_le.2 h
      push_cast at h'
      have hle : (r : ℝ) ^ 2 - (A : ℝ) - (B : ℝ) ≤
          Real.sqrt (4 * ((A : ℝ) * (B : ℝ))) :=
        Real.le_sqrt_of_sq_le (by nlinarith [h'])
      rw [← hAB] at hle
      by_contra hcon
      push_neg at hcon
      have hS : Real.sqrt (A : ℝ) + Real.sqrt (B : ℝ) < -(r : ℝ) := by
        linarith
      have hsq : (Real.sqrt (A : ℝ) + Real.sqrt (B : ℝ)) *
          (Real.sqrt (A : ℝ) + Real.sqrt (B : ℝ)) < (-(r : ℝ)) * (-(r : ℝ)) :=
        mul_self_lt_mul_self (by positivity) hS
      nlinarith [hsq, mul_nonneg hx hy, hle, Real.mul_self_sqrt hA',
        Real.mul_self_sqrt hB']
  · intro h
    by_cases hr : 0 ≤ r
    · exact Or.inl (Or.inl hr)
    · push_neg at hr
      have hr' : (r : ℝ) < 0 := by exact_mod_cast hr
      by_cases he : r ^ 2 - A - B ≤ 0
      · exact Or.inl (Or.inr he)
      · right
        push_neg at he
        have he' : ((0 : ℚ) : ℝ) < ((r ^ 2 - A - B : ℚ) : ℝ) := Rat.cast_lt.2 he
        push_cast at he'
        have hsum : (-(r : ℝ)) ≤ Real.sqrt (A : ℝ) + Real.sqrt (B : ℝ) := by
          linarith
        have hsq : (r : ℝ) ^ 2 ≤
            (Real.sqrt (A : ℝ) + Real.sqrt (B : ℝ)) ^ 2 := by
          nlinarith [hsum, hx, hy]
        rw [add_sq, Real.sq_sqrt hA', Real.sq_sqrt hB'] at hsq
        have hle : (r : ℝ) ^ 2 - (A : ℝ) - (B : ℝ) ≤
            Real.sqrt (4 * ((A : ℝ) * (B : ℝ))) := by
          rw [← hAB]
          linarith
        have hfin := (Real.le_sqrt' (by linarith : (0 : ℝ) <
          (r : ℝ) ^ 2 - (A : ℝ) - (B : ℝ))).1 hle
        have hcast : (((r ^ 2 - A - B) ^ 2 : ℚ) : ℝ) ≤ ((4 * A * B : ℚ) : ℝ) := by
          push_cast
          nlinarith [hfin]
        exact_mod_cast hcast

/-- `rootsLe` decides exactly the real inequality `c₁·√s₁ ≤ r + c₂·√s₂`. -/
theorem rootsLe_iff (c₁ : ℤ) (s₁ : ℕ) (c₂ : ℤ) (s₂ : ℕ) (r : ℚ) :
    rootsLe c₁ s₁ c₂ s₂ r = true ↔
      (c₁ : ℝ) * Real.sqrt (s₁ : ℝ) ≤
        (r : ℝ) + (c₂ : ℝ) * Real.sqrt (s₂ : ℝ) := by
  have hA : (0 : ℚ) ≤ (c₁ : ℚ) ^ 2 * (s₁ : ℚ) := by positivity
  have hB : (0 : ℚ) ≤ (c₂ : ℚ) ^ 2 * (s₂ : ℚ) := by positivity
  have hcast1 : (((c₁ : ℚ) ^ 2 * (s₁ : ℚ) : ℚ) : ℝ) =
      ((c₁ : ℝ)) ^ 2 * ((s₁ : ℕ) : ℝ) := by
    push_cast
    ring
  have hcast2 : (((c₂ : ℚ) ^ 2 * (s₂ : ℚ) : ℚ) : ℝ) =
      ((c₂ : ℝ)) ^ 2 * ((s₂ : ℕ) : ℝ) := by
    push_cast
    ring
  unfold rootsLe
  by_cases h1 : 0 ≤ c₁
  · have h1' : (0 : ℝ) ≤ (c₁ : ℝ) := by exact_mod_cast h1
    have e1 : Real.sqrt ((((c₁ : ℚ) ^ 2 * (s₁ : ℚ) : ℚ)) : ℝ) =
        (c₁ : ℝ) * Real.sqrt ((s₁ : ℕ) : ℝ) := by
      rw [hcast1, ← mul_sqrt_eq h1']
    rw [if_pos h1]
    by_cases h2 : 0 ≤ c₂
    · have h2' : (0 : ℝ) ≤ (c₂ : ℝ) := by exact_mod_cast h2
      have e2 : Real.sqrt ((((c₂ : ℚ) ^ 2 * (s₂ : ℚ) : ℚ)) : ℝ) =
          (c₂ : ℝ) * Real.sqrt ((s₂ : ℕ) : ℝ) := by
        rw [hcast2, ← mul_sqrt_eq h2']
      rw [if_pos h2, sqrtLeAdd_iff r hA hB, e1, e2]
    · push_neg at h2
      have h2' : (0 : ℝ) ≤ (-(c₂ : ℝ)) := by
        have : (c₂ : ℝ) < 0 := by exact_mod_cast h2
        linarith
      have e2 : Real.sqrt ((((c₂ : ℚ) ^ 2 * (s₂ : ℚ) : ℚ)) : ℝ) =
          -((c₂ : ℝ) * Real.sqrt ((s₂ : ℕ) : ℝ)) := by
        rw [hcast2, show ((c₂ : ℝ)) ^ 2 * ((s₂ : ℕ) : ℝ) =
          (-(c₂ : ℝ)) ^ 2 * ((s₂ : ℕ) : ℝ) by ring, ← mul_sqrt_eq h2']
        ring
      rw [if_neg (by exact_mod_cast not_le.2 h2), sqrtAddLe_iff r hA hB, e1]
      constructor <;> intro h <;> nlinarith [e2, h]
  · push_neg at h1
    have h1' : (0 : ℝ) ≤ (-(c₁ : ℝ)) := by
      have : (c₁ : ℝ) < 0 := by exact_mod_cast h1
      linarith
    have e1 : Real.sqrt ((((c₁ : ℚ) ^ 2 * (s₁ : ℚ) : ℚ)) : ℝ) =
        -((c₁ : ℝ) * Real.sqrt ((s₁ : ℕ) : ℝ)) := by
      rw [hcast1, show ((c₁ : ℝ)) ^ 2 * ((s₁ : ℕ) : ℝ) =
        (-(c₁ : ℝ)) ^ 2 * ((s₁ : ℕ) : ℝ) by ring, ← mul_sqrt_eq h1']
      ring
    rw [if_neg (not_le.2 h1)]
    by_cases h2 : 0 ≤ c₂
    · have h2' : (0 : ℝ) ≤ (c₂ : ℝ) := by exact_mod_cast h2
      have e2 : Real.sqrt ((((c₂ : ℚ) ^ 2 * (s₂ : ℚ) : ℚ)) : ℝ) =
          (c₂ : ℝ) * Real.sqrt ((s₂ : ℕ) : ℝ) := by
        rw [hcast2, ← mul_sqrt_eq h2']
      rw [if_pos h2, negSqrtLeAdd_iff r hA hB, e1, e2]
      constructor <;> intro h <;> linarith
    · push_neg at h2
      have h2' : (0 : ℝ) ≤ (-(c₂ : ℝ)) := by
        have : (c₂ : ℝ) < 0 := by exact_mod_cast h2
        linarith
      have e2 : Real.sqrt ((((c₂ : ℚ) ^ 2 * (s₂ : ℚ) : ℚ)) : ℝ) =
          -((c₂ : ℝ) * Real.sqrt ((s₂ : ℕ) : ℝ)) := by
        rw [hcast2, show ((c₂ : ℝ)) ^ 2 * ((s₂ : ℕ) : ℝ) =
          (-(c₂ : ℝ)) ^ 2 * ((s₂ : ℕ) : ℝ) by ring, ← mul_sqrt_eq h2']
        ring
      rw [if_neg (not_le.2 h2), sqrtLeAdd_iff r hB hA, e1, e2]
      constructor <;> intro h <;> linarith

/-- The queue's priority comparison decides exactly the order of the real
priorities `g + mf·√s` that the C++ `double` priorities denote. -/
theorem Prio.ble_iff (p₁ p₂ : Prio) :
    Prio.ble p₁ p₂ = true ↔ p₁.toReal ≤ p₂.toReal := by
  unfold Prio.ble Prio.toReal
  rw [rootsLe_iff]
  have hq : ((p₂.q - p₁.q : ℚ) : ℝ) = (p₂.q : ℝ) - (p₁.q : ℝ) := by
    push_cast
    ring
  rw [hq]
  constructor <;> intro h <;> linarith

/-- Lexicographic order on `tuple<int,int>`, as `std::pair`/`std::tuple` compare. -/
def nodeLe (a b : Node) : Bool :=
  decide (a.1 < b.1) || (decide (a.1 = b.1) && decide (a.2 ≤ b.2))

/-- The queue's element order: by priority, ties broken by the node tuple, as
`greater<pair<double, Node>>` orders `priority_queue` elements (min first). -/
def entryLe (x y : Prio × Node) : Bool :=
  if Prio.ble y.1 x.1 then
    if Prio.ble x.1 y.1 then nodeLe x.2 y.2 else false
  else true

/-- `entryLe` decides exactly the lexicographic order on (real priority, node)
that `greater<pair<double, Node>>` realizes on the queue's elements. -/
theorem entryLe_iff (x y : Prio × Node) :
    entryLe x y = true ↔
      (x.1.toReal < y.1.toReal ∨
        (x.1.toReal = y.1.toReal ∧ nodeLe x.2 y.2 = true)) := by
  unfold entryLe
  by_cases h1 : Prio.ble y.1 x.1 = true
  · have hyx := (Prio.ble_iff y.1 x.1).1 h1
    rw [if_pos h1]
    by_cases h2 : Prio.ble x.1 y.1 = true
    · have hxy := (Prio.ble_iff x.1 y.1).1 h2
      rw [if_pos h2]
      constructor
      · intro h
        exact Or.inr ⟨le_antisymm hxy hyx, h⟩
      · rintro (h | ⟨-, h⟩)
        · linarith
        · exact h
    · have hxy : ¬ Prio.toReal x.1 ≤ Prio.toReal y.1 := fun hc =>
        h2 ((Prio.ble_iff x.1 y.1).2 hc)
      push_neg at hxy
      rw [if_neg h2]
      constructor
      · intro h
        exact absurd h (by simp)
      · rintro (h | ⟨heq, -⟩)
        · linarith
        · rw [heq] at hxy
          exact absurd hxy (lt_irrefl _)
  · have hyx : ¬ Prio.toReal y.1 ≤ Prio.toReal x.1 := fun hc =>
      h1 ((Prio.ble_iff y.1 x.1).2 hc)
    push_neg at hyx
    rw [if_neg h1]
    constructor
    · intro _
      exact Or.inl hyx
    · intro _
      rfl

/-- Extract the minimum element of the open list (the `priority_queue`'s
`top`/`pop`), returning it and the remaining elements. -/
def popMin : List (Prio × Node) → Option ((Prio × Node) × List (Prio × Node))
  | [] => none
  | x :: xs =>
    match popMin xs with
    | none => some (x, [])
    | some (m, rest) => if entryLe x m then some (x, xs) else some (m, x :: rest)

/-! ## The A* search -/

/-- `heuristic`: `mfactor * sqrt((r1-r2)² + (c1-c2)²)`, as an exact `Prio`. -/
def heuristic (node goal : Node) (mf : ℤ) : Prio :=
  ⟨0, mf, ((node.1 - goal.1) ^ 2 + (node.2 - goal.2) ^ 2).toNat⟩

/-- `new_gscore + heuristic(...)`: adding a rational g-score to a priority. -/
def addPrio (g : ℚ) (p : Prio) : Prio :=
  ⟨g + p.q, p.c, p.s⟩

/-- The enqueued f-score denotes exactly the C++ `double`
`new_gscore + mfactor * sqrt(pow(r1-r2, 2) + pow(c1-c2, 2))`. -/
theorem addPrio_heuristic_toReal (g : ℚ) (node goal : Node) (mf : ℤ) :
    (addPrio g (heuristic node goal mf)).toReal =
      (g : ℝ) + (mf : ℝ) *
        Real.sqrt (((node.1 - goal.1 : ℤ) : ℝ) ^ 2 +
          ((node.2 - goal.2 : ℤ) : ℝ) ^ 2) := by
  unfold addPrio heuristic Prio.toReal
  have hnn : (0 : ℤ) ≤ (node.1 - goal.1) ^ 2 + (node.2 - goal.2) ^ 2 := by
    positivity
  have hs : ((((node.1 - goal.1) ^ 2 + (node.2 - goal.2) ^ 2).toNat : ℕ) : ℝ) =
      (((node.1 - goal.1) ^ 2 + (node.2 - goal.2) ^ 2 : ℤ) : ℝ) := by
    exact_mod_cast congrArg (fun z : ℤ => (z : ℝ)) (Int.toNat_of_nonneg hnn)
  rw [hs]
  push_cast
  ring

/-- The arguments of one `astar_search` invocation. -/
structure AParams where
  map : Map
  start : Node
  goal : Node
  dataset : String
  step : ℤ
  mf : ℤ

/-- The planner's search tables: `gscore`, `parents`, `closedSet`, `openSet`,
plus the (ghost) list of nodes expanded so far, recording each loop iteration
that reached the neighbor loop. -/
structure SState where
  gscore : Node → Option ℚ
  parents : Node → Option Node
  closedSet : Node → Bool
  openl : List (Prio × Node)
  expanded : List Node

/-- The body of the neighbor loop for one `neighbor`: skip when the neighbor is
in `closedSet`; otherwise compute `new_gscore = gscore[current] + compute_cost`
and, when the neighbor has no recorded g-score or the new one is smaller,
record gscore and parent and push `(fscore, neighbor)`.
`gscore[current]` is read with default 0 (`operator[]` would value-initialize
a missing entry; a popped node always has one, see `Inv.open_g`).
`none` propagates an undefined cost (see `closest_vertical_obstacle`). -/
def relaxNeighbor (p : AParams) (current : Node) (st : SState) (nb : Node) :
    Option SState :=
  if st.closedSet nb then some st
  else
    (compute_cost p.map current nb p.start p.dataset).map (fun cost =>
      let new_gscore := (st.gscore current).getD 0 + cost
      if st.gscore nb = none ∨ new_gscore < (st.gscore nb).getD 0 then
        { st with
          gscore := fun x => if x = nb then some new_gscore else st.gscore x
          parents := fun x => if x = nb then some current else st.parents x
          openl := (addPrio new_gscore (heuristic nb p.goal p.mf), nb) :: st.openl }
      else st)

/-- The full neighbor loop of one expansion. -/
def expandNode (p : AParams) (st : SState) (current : Node) : Option SState :=
  (neighbors p.map current p.step).foldlM (relaxNeighbor p current) st

/-- How a search run ends: the goal was popped (`break`), the open queue
emptied (`while` exit), an undefined cost was hit, or the fuel ran out. -/
inductive Outcome where
  | foundGoal (st : SState)
  | exhausted (st : SState)
  | undef
  | outOfFuel

/-- The `while (not openSet.empty())` loop, fuel-indexed: pop the minimum entry,
break if it is the goal, otherwise expand its neighbors.  Note that, as in the
source, nothing is ever inserted into `closedSet`. -/
def astarLoop (p : AParams) : ℕ → SState → Outcome
  | 0, _ => .outOfFuel
  | fuel + 1, st =>
    match popMin st.openl with
    | none => .exhausted st
    | some (entry, rest) =>
      if entry.2 = p.goal then .foundGoal { st with openl := rest }
      else
        match
          expandNode p
            { st with openl := rest, expanded := st.expanded ++ [entry.2] }
            entry.2
        with
        | none => .undef
        | some st2 => astarLoop p fuel st2

/-- The search tables as `astar_search` initializes them:
`openSet.put(start, 0); gscore[start] = 0`, with the caller-supplied `parents`
map empty, as the planner's callers pass a fresh map per run (spec §3). -/
def initState (p : AParams) : SState :=
  { gscore := fun x => if x = p.start then some 0 else none
    parents := fun _ => none
    closedSet := fun _ => false
    openl := [(⟨0, 0, 0⟩, p.start)]
    expanded := [] }

/-- `astar_search`, fuel-indexed. -/
def astar_search (p : AParams) (fuel : ℕ) : Outcome :=
  astarLoop p fuel (initState p)

/-- One step of the reconstruction loop: `current = parents[current]`, where
`unordered_map::operator[]` value-initializes a missing key to `(0, 0)`. -/
def parentStep (parents : Node → Option Node) (node : Node) : Node :=
  (parents node).getD (0, 0)

/-- The `while (current != start)` walk of `reconstruct_path`, fuel-indexed,
producing `[goal, parents[goal], …, start]`. -/
def pathAux (parents : Node → Option Node) (start : Node) : ℕ → Node → List Node
  | 0, current => [current]
  | fuel + 1, current =>
    if current = start then [current]
    else current :: pathAux parents start fuel (parentStep parents current)

/-- `reconstruct_path`: walk `parents` back from `goal` and reverse. -/
def reconstruct_path (start goal : Node) (parents : Node → Option Node)
    (fuel : ℕ) : List Node :=
  (pathAux parents start fuel goal).reverse

/-- Fuel sufficient for the reconstruction walk out of a final g-score of the
goal: along a parent chain the g-score drops by at least 10 per step. -/
def reconFuel (g : Option ℚ) : ℕ :=
  match g with
  | some q => q.num.toNat / 10 + 1
  | none => 0

/-- The planner's error kind for an exhausted open queue. -/
inductive PlanError where
  | NoPathFound

instance : DecidableEq PlanError :=
  fun a b =>
    match a, b with
    | .NoPathFound, .NoPathFound => isTrue rfl

/-- Modelled from the spec: the error-surfacing wrapper `plan` of §6 that
exposes the planner to collaborators is not under `src/` (only `astar_search`
and `reconstruct_path` are).  Per the spec it returns the reconstructed path on
success and fails with `NoPathFound` when the open queue empties before the
goal is popped.  The search itself is the faithful `astar_search`; `none`
covers the fuel cutoff and runs that hit an undefined cost. -/
def plan (p : AParams) (fuel : ℕ) : Option (Except PlanError (List Node)) :=
  match astar_search p fuel with
  | .exhausted _ => some (.error .NoPathFound)
  | .foundGoal st =>
      some (.ok (reconstruct_path p.start p.goal st.parents
        (reconFuel (st.gscore p.goal))))
  | .undef => none
  | .outOfFuel => none

/-- Whether a run ended with the open queue exhausted. -/
def isExhausted : Outcome → Bool
  | .exhausted _ => true
  | _ => false

/-- The expansion trace of a finished run. -/
def expandedOf : Outcome → List Node
  | .foundGoal st => st.expanded
  | .exhausted st => st.expanded
  | _ => []

/-! ## The path projector (utils.cpp) -/

/-- A single-channel image: dimensions plus the byte at each coordinate.  The
pixel map is total, so an out-of-range `Mat::at` write (which the C++ performs
unchecked) is representable and visible. -/
structure Image where
  rows : ℤ
  cols : ℤ
  pix : Node → ℕ

/-- One unchecked `input.at<uchar>(node) = v` write. -/
def writePix (img : Image) (node : Node) (v : ℕ) : Image :=
  { img with pix := fun x => if x = node then v else img.pix x }

/-- The inner loop of `segment_above_boundary` for one boundary node: for
`i = row; i < rows; i++` blank `(i, col)` and, under the source's guard
`col < cols`, also `(i, col + 1)`. -/
def paintColumnDown (img : Image) (row col : ℤ) : Image :=
  (List.range (img.rows - row).toNat).foldl
    (fun acc k =>
      let i : ℤ := row + (k : ℤ)
      let acc1 := writePix acc (i, col) 255
      if col < acc1.cols then writePix acc1 (i, col + 1) 255 else acc1)
    img

/-- The inner loop of `segment_below_boundary` for one boundary node: for
`i = row; i ≥ 0; i--` blank `(i, col)` and, under the guard `col < cols`,
also `(i, col + 1)`. -/
def paintColumnUp (img : Image) (row col : ℤ) : Image :=
  (List.range (row + 1).toNat).foldl
    (fun acc k =>
      let i : ℤ := row - (k : ℤ)
      let acc1 := writePix acc (i, col) 255
      if col < acc1.cols then writePix acc1 (i, col + 1) 255 else acc1)
    img

/-- `segment_above_boundary`: erase everything from each boundary node
downward (used when the boundary is the lower edge of the line). -/
def segment_above_boundary (img : Image) (boundary : List Node) : Image :=
  boundary.foldl (fun acc node => paintColumnDown acc node.1 node.2) img

/-- `segment_below_boundary`: erase everything from each boundary node
upward (used when the boundary is the upper edge of the line). -/
def segment_below_boundary (img : Image) (boundary : List Node) : Image :=
  boundary.foldl (fun acc node => paintColumnUp acc node.1 node.2) img

/-- `lowest_boundary_pos`: the maximum row over the boundary.  On an empty
boundary the source returns an uninitialized `int` (undefined), modelled as
`none`. -/
def lowest_boundary_pos (boundary : List Node) : Option ℤ :=
  match boundary with
  | [] => none
  | x :: xs => some (xs.foldl (fun acc n => if n.1 > acc then n.1 else acc) x.1)

/-- `highest_boundary_pos`: the minimum row over the boundary; `none` models
the uninitialized read on an empty boundary. -/
def highest_boundary_pos (boundary : List Node) : Option ℤ :=
  match boundary with
  | [] => none
  | x :: xs => some (xs.foldl (fun acc n => if n.1 < acc then n.1 else acc) x.1)

/-- `highest_pixel_row`: the first row (top to bottom) containing a 0 pixel,
or `rows` when there is none. -/
def highest_pixel_row (img : Image) : ℤ :=
  match
    (List.range img.rows.toNat).find? (fun (i : ℕ) =>
      (List.range img.cols.toNat).any (fun (j : ℕ) =>
        img.pix ((i : ℤ), (j : ℤ)) == 0))
  with
  | some i => (i : ℤ)
  | none => img.rows

/-- `lowest_pixel_row`: the last row (bottom to top) containing a 0 pixel, or
`0` when there is none. -/
def lowest_pixel_row (img : Image) : ℤ :=
  match
    (List.range img.rows.toNat).reverse.find? (fun (i : ℕ) =>
      (List.range img.cols.toNat).any (fun (j : ℕ) =>
        img.pix ((i : ℤ), (j : ℤ)) == 0))
  with
  | some i => (i : ℤ)
  | none => 0

/-- `extract_bounding_box`: copy of the `Rect(x, y, width, height)` region.
The ROI constructor `Mat::Mat(const Mat& m, const Rect& roi)` runs the
always-on range check
`CV_Assert(0 <= roi.x && 0 <= roi.width && roi.x + roi.width <= m.cols &&
0 <= roi.y && 0 <= roi.height && roi.y + roi.height <= m.rows)` and throws
(producing no image) when it fails; the thrown path is `none`. -/
def extract_bounding_box (img : Image) (x y width height : ℤ) : Option Image :=
  if 0 ≤ x ∧ 0 ≤ width ∧ x + width ≤ img.cols ∧
      0 ≤ y ∧ 0 ≤ height ∧ y + height ≤ img.rows then
    some { rows := height, cols := width, pix := fun q => img.pix (q.1 + y, q.2 + x) }
  else none

/-- The two-boundary `segment_text_line`: reference rows from the two
boundaries, paint below the lower and above the upper boundary, then crop
`Rect(0, highest_pos, cols, lowest_pos - highest_pos)` (the image written by
`imwrite` is this crop). -/
def segment_text_line (img : Image) (lower upper : List Node) : Option Image :=
  match highest_boundary_pos upper, lowest_boundary_pos lower with
  | some highest_pos, some lowest_pos =>
    let output := segment_below_boundary (segment_above_boundary img lower) upper
    extract_bounding_box output 0 highest_pos img.cols
      (lowest_pos - highest_pos)
  | _, _ => none

/-- The single-boundary `segment_text_line` overload.  Note the source reads
`highest_pixel_row` / `lowest_pixel_row` of `output` BEFORE painting the
boundary into it. -/
def segment_text_line_single (img : Image) (boundary_is_lower : Bool)
    (boundary : List Node) : Option Image :=
  if boundary_is_lower then
    match lowest_boundary_pos boundary with
    | some lowest_pos =>
      let upper_bound := highest_pixel_row img
      let output := segment_above_boundary img boundary
      extract_bounding_box output 0 upper_bound img.cols
        (lowest_pos - upper_bound)
    | none => none
  else
    match highest_boundary_pos boundary with
    | some highest_pos =>
      let lower_bound := lowest_pixel_row img
      let output := segment_below_boundary img boundary
      extract_bounding_box output 0 highest_pos img.cols
        (lower_bound - highest_pos)
    | none => none

/-- The single-boundary projector with role = lower as claim C7 words it: the
crop's upper bound is the topmost ink row of the image AFTER the boundary has
been painted (erasing downward).  It differs from `segment_text_line_single`
only in when `highest_pixel_row` is read. -/
def segment_text_line_lower_claim (img : Image) (boundary : List Node) :
    Option Image :=
  match lowest_boundary_pos boundary with
  | some lowest_pos =>
    let output := segment_above_boundary img boundary
    let upper_bound := highest_pixel_row output
    extract_bounding_box output 0 upper_bound img.cols
      (lowest_pos - upper_bound)
  | none => none

/-! ## Queue lemmas -/

theorem popMin_mem :
    ∀ {l : List (Prio × Node)} {x rest}, popMin l = some (x, rest) → x ∈ l := by
  intro l
  induction l with
  | nil => intro x rest h; simp [popMin] at h
  | cons a xs ih =>
    intro x rest h
    rw [popMin] at h
    cases hxs : popMin xs with
    | none =>
      rw [hxs] at h
      simp only [Option.some.injEq, Prod.mk.injEq] at h
      exact h.1 ▸ List.mem_cons_self a xs
    | some pr =>
      obtain ⟨m, r⟩ := pr
      rw [hxs] at h
      by_cases hle : entryLe a m = true
      · simp only [hle, if_true, Option.some.injEq, Prod.mk.injEq] at h
        exact h.1 ▸ List.mem_cons_self a xs
      · simp only [hle, if_false, Option.some.injEq, Prod.mk.injEq,
          Bool.false_eq_true] at h
        exact h.1 ▸ List.mem_cons_of_mem a (ih hxs)

theorem popMin_rest_mem :
    ∀ {l : List (Prio × Node)} {x rest}, popMin l = some (x, rest) →
      ∀ y ∈ rest, y ∈ l := by
  intro l
  induction l with
  | nil => intro x rest h; simp [popMin] at h
  | cons a xs ih =>
    intro x rest h y hy
    rw [popMin] at h
    cases hxs : popMin xs with
    | none =>
      rw [hxs] at h
      simp only [Option.some.injEq, Prod.mk.injEq] at h
      rw [← h.2] at hy
      simp at hy
    | some pr =>
      obtain ⟨m, r⟩ := pr
      rw [hxs] at h
      by_cases hle : entryLe a m = true
      · simp only [hle, if_true, Option.some.injEq, Prod.mk.injEq] at h
        exact h.2 ▸ List.mem_cons_of_mem a hy
      · simp only [hle, if_false, Option.some.injEq, Prod.mk.injEq,
          Bool.false_eq_true] at h
        rw [← h.2] at hy
        rcases List.mem_cons.1 hy with h1 | h1
        · exact h1 ▸ List.mem_cons_self a xs
        · exact List.mem_cons_of_mem a (ih hxs y h1)

/-! ## Cost bounds -/

theorem V_nonneg (node start : Node) : 0 ≤ V node start := by
  unfold V
  exact_mod_cast abs_nonneg _

theorem N_ge_ten (current neighbor : Node) : 10 ≤ N current neighbor := by
  unfold N
  split <;> norm_num

theorem M_nonneg (m : Map) (node : Node) : 0 ≤ M m node := by
  unfold M
  split <;> norm_num

theorem compute_cost_ge_ten {m : Map} {u v s : Node} {ds : String} {c : ℚ}
    (h : compute_cost m u v s ds = some c) : 10 ≤ c := by
  unfold compute_cost at h
  cases hD : D m v with
  | none => rw [hD] at h; simp at h
  | some d2 =>
    rw [hD] at h
    simp only [Option.map_some', Option.some.injEq] at h
    obtain ⟨d, hd⟩ : ∃ d : ℕ, d2 = (1 / (1 + (d : ℚ)), 1 / (1 + (d : ℚ) ^ 2)) := by
      unfold D at hD
      cases hc : closest_vertical_obstacle m v with
      | none => rw [hc] at hD; simp at hD
      | some d =>
        rw [hc] at hD
        simp only [Option.map_some', Option.some.injEq] at hD
        exact ⟨d, hD.symm⟩
    subst hd
    have h1 : (0 : ℚ) ≤ 1 / (1 + (d : ℚ)) := by positivity
    have h2 : (0 : ℚ) ≤ 1 / (1 + (d : ℚ) ^ 2) := by positivity
    have hV := V_nonneg v s
    have hN := N_ge_ten u v
    have hM := M_nonneg m v
    subst h
    split <;> nlinarith

/-! ## The search invariant -/

/-- Invariant maintained by every step of the search loop: `gscore[start] = 0`,
g-scores are nonnegative and at least 10 away from the start, every parent
edge is a step-scaled neighbor edge whose g-scores drop by at least 10 along
the chain, every non-start node with a g-score has a parent, and every open
entry has a g-score. -/
structure Inv (p : AParams) (st : SState) : Prop where
  g_start : st.gscore p.start = some 0
  g_nonneg : ∀ v q, st.gscore v = some q → 0 ≤ q
  g_pos : ∀ v q, v ≠ p.start → st.gscore v = some q → 10 ≤ q
  parent_nb : ∀ v u, st.parents v = some u → v ∈ neighbors p.map u p.step
  parent_g : ∀ v u, st.parents v = some u →
    ∃ qv qu, st.gscore v = some qv ∧ st.gscore u = some qu ∧ qu + 10 ≤ qv
  parent_def : ∀ v, v ≠ p.start → st.gscore v ≠ none → st.parents v ≠ none
  open_g : ∀ pr v, (pr, v) ∈ st.openl → st.gscore v ≠ none

theorem initState_inv (p : AParams) : Inv p (initState p) := by
  constructor
  · simp [initState]
  · intro v q h
    simp only [initState] at h
    split at h
    · exact (Option.some.injEq _ _ ▸ h) ▸ le_refl 0
    · simp at h
  · intro v q hv h
    simp only [initState] at h
    split at h
    · exact absurd (by assumption) hv
    · simp at h
  · intro v u h; simp [initState] at h
  · intro v u h; simp [initState] at h
  · intro v hv h
    simp only [initState] at h
    split at h
    · exact absurd (by assumption) hv
    · simp at h
  · intro pr v h
    simp only [initState, List.mem_singleton, Prod.mk.injEq] at h
    rw [h.2]
    simp [initState]

/-- A successful relaxation (strict improvement) preserves the invariant; the
relaxed neighbor can be neither the start nor the current node. -/
theorem update_inv {p : AParams} {st : SState} {current nb : Node} {gc cost : ℚ}
    (hinv : Inv p st) (hgc : st.gscore current = some gc)
    (hnb : nb ∈ neighbors p.map current p.step) (hcost : 10 ≤ cost)
    (himp : ∀ q, st.gscore nb = some q → gc + cost < q) :
    nb ≠ p.start ∧ nb ≠ current ∧
      Inv p { st with
        gscore := fun x => if x = nb then some (gc + cost) else st.gscore x
        parents := fun x => if x = nb then some current else st.parents x
        openl :=
          (addPrio (gc + cost) (heuristic nb p.goal p.mf), nb) :: st.openl } := by
  have hgc0 : 0 ≤ gc := hinv.g_nonneg current gc hgc
  have hns : nb ≠ p.start := by
    intro hEq
    have := himp 0 (hEq ▸ hinv.g_start)
    linarith
  have hncur : nb ≠ current := by
    intro hEq
    have := himp gc (hEq ▸ hgc)
    linarith
  refine ⟨hns, hncur, ?_, ?_, ?_, ?_, ?_, ?_, ?_⟩
  · show (if p.start = nb then _ else st.gscore p.start) = some 0
    rw [if_neg (fun hEq => hns hEq.symm)]
    exact hinv.g_start
  · intro v q hv
    have hv' : (if v = nb then some (gc + cost) else st.gscore v) = some q := hv
    by_cases hvn : v = nb
    · rw [if_pos hvn] at hv'
      have := Option.some.inj hv'
      linarith
    · rw [if_neg hvn] at hv'
      exact hinv.g_nonneg v q hv'
  · intro v q hvs hv
    have hv' : (if v = nb then some (gc + cost) else st.gscore v) = some q := hv
    by_cases hvn : v = nb
    · rw [if_pos hvn] at hv'
      have := Option.some.inj hv'
      linarith
    · rw [if_neg hvn] at hv'
      exact hinv.g_pos v q hvs hv'
  · intro v u hv
    have hv' : (if v = nb then some current else st.parents v) = some u := hv
    by_cases hvn : v = nb
    · rw [if_pos hvn] at hv'
      have := Option.some.inj hv'
      subst this
      exact hvn ▸ hnb
    · rw [if_neg hvn] at hv'
      exact hinv.parent_nb v u hv'
  · intro v u hv
    have hv' : (if v = nb then some current else st.parents v) = some u := hv
    by_cases hvn : v = nb
    · rw [if_pos hvn] at hv'
      have := Option.some.inj hv'
      subst this
      subst hvn
      refine ⟨gc + cost, gc, ?_, ?_, by linarith⟩
      · show (if v = v then _ else _) = _
        rw [if_pos rfl]
      · show (if current = v then _ else st.gscore current) = some gc
        rw [if_neg (fun hEq => hncur hEq.symm)]
        exact hgc
    · rw [if_neg hvn] at hv'
      obtain ⟨qv, qu, hqv, hqu, hle⟩ := hinv.parent_g v u hv'
      by_cases hun : u = nb
      · have hlt := himp qu (hun ▸ hqu)
        refine ⟨qv, gc + cost, ?_, ?_, by linarith⟩
        · show (if v = nb then _ else st.gscore v) = some qv
          rw [if_neg hvn]
          exact hqv
        · show (if u = nb then _ else _) = _
          rw [if_pos hun]
      · refine ⟨qv, qu, ?_, ?_, hle⟩
        · show (if v = nb then _ else st.gscore v) = some qv
          rw [if_neg hvn]
          exact hqv
        · show (if u = nb then _ else st.gscore u) = some qu
          rw [if_neg hun]
          exact hqu
  · intro v hvs hv
    have hv' : (if v = nb then some (gc + cost) else st.gscore v) ≠ none := hv
    by_cases hvn : v = nb
    · show (if v = nb then some current else st.parents v) ≠ none
      rw [if_pos hvn]
      exact Option.some_ne_none current
    · rw [if_neg hvn] at hv'
      show (if v = nb then some current else st.parents v) ≠ none
      rw [if_neg hvn]
      exact hinv.parent_def v hvs hv'
  · intro pr v hv
    show (if v = nb then some (gc + cost) else st.gscore v) ≠ none
    rcases List.mem_cons.1 hv with h1 | h1
    · simp only [Prod.mk.injEq] at h1
      obtain ⟨-, rfl⟩ := h1
      rw [if_pos rfl]
      exact Option.some_ne_none _
    · by_cases hvn : v = nb
      · rw [if_pos hvn]
        exact Option.some_ne_none _
      · rw [if_neg hvn]
        exact hinv.open_g pr v h1

/-- The body of the neighbor loop preserves the invariant and the g-score of
the node being expanded. -/
theorem relaxNeighbor_inv {p : AParams} {current : Node} {st st' : SState}
    {nb : Node} {gc : ℚ}
    (hinv : Inv p st) (hgc : st.gscore current = some gc)
    (hnb : nb ∈ neighbors p.map current p.step)
    (h : relaxNeighbor p current st nb = some st') :
    Inv p st' ∧ st'.gscore current = some gc := by
  unfold relaxNeighbor at h
  by_cases hcl : st.closedSet nb
  · rw [if_pos hcl] at h
    obtain rfl := Option.some.inj h
    exact ⟨hinv, hgc⟩
  · rw [if_neg hcl] at h
    cases hc : compute_cost p.map current nb p.start p.dataset with
    | none => rw [hc] at h; simp at h
    | some cost =>
      rw [hc] at h
      simp only [Option.map_some', Option.some.injEq, hgc, Option.getD_some] at h
      have hcost := compute_cost_ge_ten hc
      by_cases hcond : st.gscore nb = none ∨ gc + cost < (st.gscore nb).getD 0
      · rw [if_pos hcond] at h
        have himp : ∀ q, st.gscore nb = some q → gc + cost < q := by
          intro q hq
          rcases hcond with h1 | h1
          · rw [hq] at h1
            exact absurd h1 (Option.noConfusion)
          · rw [hq, Option.getD_some] at h1
            exact h1
        obtain ⟨hns, hncur, hinv'⟩ := update_inv hinv hgc hnb hcost himp
        refine ⟨h ▸ hinv', ?_⟩
        rw [← h]
        show (if current = nb then _ else st.gscore current) = some gc
        rw [if_neg (fun hEq => hncur hEq.symm)]
        exact hgc
      · rw [if_neg hcond] at h
        exact ⟨h ▸ hinv, h ▸ hgc⟩

theorem foldlM_relax_inv {p : AParams} {current : Node} :
    ∀ (l : List Node), (∀ nb ∈ l, nb ∈ neighbors p.map current p.step) →
      ∀ {st st' : SState} {gc : ℚ}, Inv p st → st.gscore current = some gc →
        List.foldlM (relaxNeighbor p current) st l = some st' →
        Inv p st' ∧ st'.gscore current = some gc := by
  intro l
  induction l with
  | nil =>
    intro _ st st' gc hinv hgc h
    have h' : some st = some st' := h
    obtain rfl := Option.some.inj h'
    exact ⟨hinv, hgc⟩
  | cons x xs ih =>
    intro hmem st st' gc hinv hgc h
    rw [List.foldlM_cons] at h
    cases hx : relaxNeighbor p current st x with
    | none => rw [hx] at h; simp at h
    | some st1 =>
      rw [hx] at h
      have h' : List.foldlM (relaxNeighbor p current) st1 xs = some st' := h
      obtain ⟨hinv1, hgc1⟩ :=
        relaxNeighbor_inv hinv hgc (hmem x (List.mem_cons_self x xs)) hx
      exact ih (fun nb hnb => hmem nb (List.mem_cons_of_mem x hnb)) hinv1 hgc1 h'

/-- Expanding a node with a defined g-score preserves the invariant. -/
theorem expandNode_inv {p : AParams} {st st' : SState} {current : Node} {gc : ℚ}
    (hinv : Inv p st) (hgc : st.gscore current = some gc)
    (h : expandNode p st current = some st') : Inv p st' :=
  (foldlM_relax_inv (neighbors p.map current p.step) (fun _ hnb => hnb) hinv hgc
    h).1

/-- A run that pops the goal ends in an invariant state in which the goal has a
g-score. -/
theorem astarLoop_inv {p : AParams} :
    ∀ (fuel : ℕ) {st st' : SState}, Inv p st →
      astarLoop p fuel st = Outcome.foundGoal st' →
      Inv p st' ∧ st'.gscore p.goal ≠ none := by
  intro fuel
  induction fuel with
  | zero =>
    intro st st' hinv h
    simp [astarLoop] at h
  | succ n ih =>
    intro st st' hinv h
    rw [astarLoop] at h
    cases hpop : popMin st.openl with
    | none =>
      simp only [hpop] at h
      exact Outcome.noConfusion h
    | some pr =>
      obtain ⟨entry, rest⟩ := pr
      simp only [hpop] at h
      by_cases hg : entry.2 = p.goal
      · rw [if_pos hg] at h
        injection h with heq
        subst heq
        have hmem : (entry.1, entry.2) ∈ st.openl := popMin_mem hpop
        refine ⟨⟨hinv.g_start, hinv.g_nonneg, hinv.g_pos, hinv.parent_nb,
          hinv.parent_g, hinv.parent_def, ?_⟩, ?_⟩
        · intro pr v hv
          exact hinv.open_g pr v (popMin_rest_mem hpop _ hv)
        · show st.gscore p.goal ≠ none
          exact hg ▸ hinv.open_g entry.1 entry.2 hmem
      · rw [if_neg hg] at h
        cases hex : expandNode p
            (SState.mk st.gscore st.parents st.closedSet rest
              (st.expanded ++ [entry.2])) entry.2 with
        | none =>
          simp only [hex] at h
          exact Outcome.noConfusion h
        | some st2 =>
          simp only [hex] at h
          have hmem : (entry.1, entry.2) ∈ st.openl := popMin_mem hpop
          have hgsome : st.gscore entry.2 ≠ none :=
            hinv.open_g entry.1 entry.2 hmem
          obtain ⟨gc, hgc⟩ := Option.ne_none_iff_exists'.1 hgsome
          have hinvmid :
              Inv p (SState.mk st.gscore st.parents st.closedSet rest
                (st.expanded ++ [entry.2])) := by
            refine ⟨hinv.g_start, hinv.g_nonneg, hinv.g_pos, hinv.parent_nb,
              hinv.parent_g, hinv.parent_def, ?_⟩
            intro pr v hv
            exact hinv.open_g pr v (popMin_rest_mem hpop _ hv)
          exact ih (expandNode_inv hinvmid hgc hex) h

/-- Nothing the neighbor loop does touches `closedSet`: the code contains no
`closedSet.insert`. -/
theorem relaxNeighbor_closedSet {p : AParams} {current : Node} {st st' : SState}
    {nb : Node} (h : relaxNeighbor p current st nb = some st') :
    st'.closedSet = st.closedSet := by
  unfold relaxNeighbor at h
  by_cases hcl : st.closedSet nb
  · rw [if_pos hcl] at h
    obtain rfl := Option.some.inj h
    rfl
  · rw [if_neg hcl] at h
    cases hc : compute_cost p.map current nb p.start p.dataset with
    | none => rw [hc] at h; simp at h
    | some cost =>
      rw [hc] at h
      simp only [Option.map_some', Option.some.injEq] at h
      by_cases hcond : st.gscore nb = none ∨
          (st.gscore current).getD 0 + cost < (st.gscore nb).getD 0
      · rw [if_pos hcond] at h
        rw [← h]
      · rw [if_neg hcond] at h
        rw [← h]

theorem foldlM_relax_closedSet {p : AParams} {current : Node} :
    ∀ (l : List Node) {st st' : SState},
      List.foldlM (relaxNeighbor p current) st l = some st' →
      st'.closedSet = st.closedSet := by
  intro l
  induction l with
  | nil =>
    intro st st' h
    have h' : some st = some st' := h
    rw [← Option.some.inj h']
  | cons x xs ih =>
    intro st st' h
    rw [List.foldlM_cons] at h
    cases hx : relaxNeighbor p current st x with
    | none => rw [hx] at h; simp at h
    | some st1 =>
      rw [hx] at h
      have h' : List.foldlM (relaxNeighbor p current) st1 xs = some st' := h
      exact (ih h').trans (relaxNeighbor_closedSet hx)

/-- The search loop never inserts anything into `closedSet`: whether a run
pops the goal or exhausts the open queue, the closed set at the end is the
closed set it started with (hence always the initial empty set). -/
theorem astarLoop_closedSet {p : AParams} :
    ∀ (fuel : ℕ) {st st' : SState},
      astarLoop p fuel st = Outcome.foundGoal st' ∨
        astarLoop p fuel st = Outcome.exhausted st' →
      st'.closedSet = st.closedSet := by
  intro fuel
  induction fuel with
  | zero =>
    intro st st' h
    rcases h with h | h <;> simp [astarLoop] at h
  | succ n ih =>
    intro st st' h
    rw [astarLoop] at h
    cases hpop : popMin st.openl with
    | none =>
      simp only [hpop] at h
      rcases h with h | h
      · exact Outcome.noConfusion h
      · injection h with heq
        rw [heq]
    | some pr =>
      obtain ⟨entry, rest⟩ := pr
      simp only [hpop] at h
      by_cases hg : entry.2 = p.goal
      · rw [if_pos hg] at h
        rcases h with h | h
        · injection h with heq
          rw [← heq]
        · exact Outcome.noConfusion h
      · rw [if_neg hg] at h
        cases hex : expandNode p
            (SState.mk st.gscore st.parents st.closedSet rest
              (st.expanded ++ [entry.2])) entry.2 with
        | none =>
          simp only [hex] at h
          rcases h with h | h <;> exact Outcome.noConfusion h
        | some st2 =>
          simp only [hex] at h
          have hex' : List.foldlM (relaxNeighbor p entry.2)
              (SState.mk st.gscore st.parents st.closedSet rest
                (st.expanded ++ [entry.2]))
              (neighbors p.map entry.2 p.step) = some st2 := hex
          have hstep := foldlM_relax_closedSet
            (neighbors p.map entry.2 p.step) hex'
          exact (ih h).trans hstep

/-- In an invariant state, the parent chain of any node with g-score `q`
reaches the start within `q / 10` steps, and the parents map is defined along
the whole chain. -/
theorem chain_reaches_start {p : AParams} {st : SState} (hinv : Inv p st) :
    ∀ (n : ℕ) (v : Node) (q : ℚ), st.gscore v = some q → q ≤ 10 * n →
      ∃ k, k ≤ n ∧ (parentStep st.parents)^[k] v = p.start ∧
        ∀ j < k, st.parents ((parentStep st.parents)^[j] v) =
          some ((parentStep st.parents)^[j + 1] v) := by
  intro n
  induction n with
  | zero =>
    intro v q hv hq
    by_cases hvs : v = p.start
    · exact ⟨0, le_refl 0, hvs, by intro j hj; omega⟩
    · have := hinv.g_pos v q hvs hv
      push_cast at hq
      linarith
  | succ n ih =>
    intro v q hv hq
    by_cases hvs : v = p.start
    · exact ⟨0, Nat.zero_le _, hvs, by intro j hj; omega⟩
    · have hgne : st.gscore v ≠ none := by rw [hv]; exact Option.some_ne_none q
      have hpdef := hinv.parent_def v hvs hgne
      obtain ⟨u, hu⟩ := Option.ne_none_iff_exists'.1 hpdef
      obtain ⟨qv, qu, hqv, hqu, hle⟩ := hinv.parent_g v u hu
      rw [hv] at hqv
      obtain rfl := Option.some.inj hqv.symm
      have hqu' : qu ≤ 10 * n := by push_cast at hq ⊢; linarith
      have hpv : parentStep st.parents v = u := by
        unfold parentStep
        rw [hu]
        rfl
      obtain ⟨k, hk, hreach, hchain⟩ := ih u qu hqu hqu'
      refine ⟨k + 1, Nat.succ_le_succ hk, ?_, ?_⟩
      · rw [Function.iterate_succ_apply, hpv]
        exact hreach
      · intro j hj
        cases j with
        | zero =>
          show st.parents v = some ((parentStep st.parents)^[1] v)
          rw [Function.iterate_one, hpv]
          exact hu
        | succ i =>
          have hi : i < k := by omega
          have hstep := hchain i hi
          rw [Function.iterate_succ_apply, Function.iterate_succ_apply, hpv]
          exact hstep

/-- With the least chain length `k` and fuel at least `k`, the reconstruction
walk produces exactly the parent chain `[goal, parents[goal], …, start]`. -/
theorem pathAux_eq {parents : Node → Option Node} {start : Node} :
    ∀ (k : ℕ) (cur : Node) (fuel : ℕ),
      (parentStep parents)^[k] cur = start →
      (∀ j, j < k → (parentStep parents)^[j] cur ≠ start) →
      k ≤ fuel →
      pathAux parents start fuel cur =
        (List.range (k + 1)).map (fun j => (parentStep parents)^[j] cur) := by
  intro k
  induction k with
  | zero =>
    intro cur fuel hreach hmin hk
    have hcur : cur = start := hreach
    subst hcur
    cases fuel with
    | zero => simp [pathAux]
    | succ f => simp [pathAux]
  | succ k ih =>
    intro cur fuel hreach hmin hk
    have hcur : cur ≠ start := by
      have := hmin 0 (Nat.succ_pos k)
      simpa using this
    cases fuel with
    | zero => omega
    | succ f =>
      rw [pathAux, if_neg hcur]
      have hreach' :
          (parentStep parents)^[k] (parentStep parents cur) = start := by
        rw [← Function.iterate_succ_apply]
        exact hreach
      have hmin' : ∀ j, j < k →
          (parentStep parents)^[j] (parentStep parents cur) ≠ start := by
        intro j hj
        rw [← Function.iterate_succ_apply]
        exact hmin (j + 1) (Nat.succ_lt_succ hj)
      rw [ih (parentStep parents cur) f hreach' hmin' (Nat.le_of_succ_le_succ hk)]
      conv_rhs => rw [List.range_succ_eq_map]
      simp only [List.map_cons, Function.iterate_zero_apply, List.map_map]
      rfl

/-- Full description of `reconstruct_path` under the finite-chain hypothesis:
with the least chain length `k` and any fuel `≥ k`, it returns the reversed
parent chain, beginning at `start` and ending at `goal`. -/
theorem reconstruct_path_spec {parents : Node → Option Node} {start goal : Node}
    {k : ℕ} (hreach : (parentStep parents)^[k] goal = start)
    (hmin : ∀ j, j < k → (parentStep parents)^[j] goal ≠ start)
    {fuel : ℕ} (hfuel : k ≤ fuel) :
    reconstruct_path start goal parents fuel =
      ((List.range (k + 1)).map
        (fun j => (parentStep parents)^[j] goal)).reverse ∧
    (reconstruct_path start goal parents fuel).head? = some start ∧
    (reconstruct_path start goal parents fuel).getLast? = some goal ∧
    reconstruct_path start goal parents fuel ≠ [] := by
  have hpath : reconstruct_path start goal parents fuel =
      ((List.range (k + 1)).map
        (fun j => (parentStep parents)^[j] goal)).reverse := by
    unfold reconstruct_path
    rw [pathAux_eq k goal fuel hreach hmin hfuel]
  refine ⟨hpath, ?_, ?_, ?_⟩
  · rw [hpath, List.head?_reverse, List.range_succ]
    simp [hreach]
  · rw [hpath, List.getLast?_reverse]
    rw [List.range_succ_eq_map]
    simp only [List.map_cons, Function.iterate_zero_apply, List.head?_cons]
  · rw [hpath]
    simp [List.range_succ]

/-! ## Projector lemmas -/

/-- `max_row` over a boundary, as the spec names it. -/
def maxRow : List Node → ℤ
  | [] => 0
  | x :: xs => xs.foldl (fun a n => max a n.1) x.1

/-- `min_row` over a boundary, as the spec names it. -/
def minRow : List Node → ℤ
  | [] => 0
  | x :: xs => xs.foldl (fun a n => min a n.1) x.1

theorem foldl_if_max (xs : List Node) :
    ∀ a : ℤ, xs.foldl (fun acc n => if n.1 > acc then n.1 else acc) a =
      xs.foldl (fun acc n => max acc n.1) a := by
  induction xs with
  | nil => intro a; rfl
  | cons x xs ih =>
    intro a
    simp only [List.foldl_cons]
    rw [show (if x.1 > a then x.1 else a) = max a x.1 by
      rcases le_or_lt x.1 a with h | h
      · rw [if_neg (not_lt.2 h), max_eq_left h]
      · rw [if_pos h, max_eq_right h.le]]
    exact ih _

theorem foldl_if_min (xs : List Node) :
    ∀ a : ℤ, xs.foldl (fun acc n => if n.1 < acc then n.1 else acc) a =
      xs.foldl (fun acc n => min acc n.1) a := by
  induction xs with
  | nil => intro a; rfl
  | cons x xs ih =>
    intro a
    simp only [List.foldl_cons]
    rw [show (if x.1 < a then x.1 else a) = min a x.1 by
      rcases le_or_lt a x.1 with h | h
      · rw [if_neg (not_lt.2 h), min_eq_left h]
      · rw [if_pos h, min_eq_right h.le]]
    exact ih _

theorem lowest_boundary_pos_eq_maxRow (b : List Node) (hb : b ≠ []) :
    lowest_boundary_pos b = some (maxRow b) := by
  cases b with
  | nil => exact absurd rfl hb
  | cons x xs =>
    simp only [lowest_boundary_pos, maxRow]
    rw [foldl_if_max]

theorem highest_boundary_pos_eq_minRow (b : List Node) (hb : b ≠ []) :
    highest_boundary_pos b = some (minRow b) := by
  cases b with
  | nil => exact absurd rfl hb
  | cons x xs =>
    simp only [highest_boundary_pos, minRow]
    rw [foldl_if_min]

/-- A fold whose step preserves the row and column counts preserves them. -/
theorem foldl_dims_preserved {α : Type} (step : Image → α → Image)
    (hstep : ∀ im a, (step im a).rows = im.rows ∧ (step im a).cols = im.cols) :
    ∀ (l : List α) (im : Image),
      (l.foldl step im).rows = im.rows ∧ (l.foldl step im).cols = im.cols := by
  intro l
  induction l with
  | nil => intro im; exact ⟨rfl, rfl⟩
  | cons x xs ih =>
    intro im
    rw [List.foldl_cons]
    obtain ⟨h1, h2⟩ := ih (step im x)
    obtain ⟨h3, h4⟩ := hstep im x
    exact ⟨h1.trans h3, h2.trans h4⟩

/-- One body iteration of either painter keeps the image dimensions. -/
theorem writeStep_dims (im : Image) (i col : ℤ) :
    (if col < (writePix im (i, col) 255).cols
      then writePix (writePix im (i, col) 255) (i, col + 1) 255
      else writePix im (i, col) 255).rows = im.rows ∧
    (if col < (writePix im (i, col) 255).cols
      then writePix (writePix im (i, col) 255) (i, col + 1) 255
      else writePix im (i, col) 255).cols = im.cols := by
  constructor <;> (split <;> rfl)

theorem paintColumnDown_dims (img : Image) (row col : ℤ) :
    (paintColumnDown img row col).rows = img.rows ∧
    (paintColumnDown img row col).cols = img.cols := by
  unfold paintColumnDown
  exact foldl_dims_preserved _
    (fun im k => writeStep_dims im (row + (k : ℤ)) col) _ img

theorem paintColumnUp_dims (img : Image) (row col : ℤ) :
    (paintColumnUp img row col).rows = img.rows ∧
    (paintColumnUp img row col).cols = img.cols := by
  unfold paintColumnUp
  exact foldl_dims_preserved _
    (fun im k => writeStep_dims im (row - (k : ℤ)) col) _ img

/-- Painting a boundary never changes the image dimensions, so the `Mat`
range check of the subsequent crop is against the input's dimensions. -/
theorem segment_above_boundary_dims (img : Image) (b : List Node) :
    (segment_above_boundary img b).rows = img.rows ∧
    (segment_above_boundary img b).cols = img.cols := by
  unfold segment_above_boundary
  exact foldl_dims_preserved _
    (fun im (n : Node) => paintColumnDown_dims im n.1 n.2) _ img

theorem segment_below_boundary_dims (img : Image) (b : List Node) :
    (segment_below_boundary img b).rows = img.rows ∧
    (segment_below_boundary img b).cols = img.cols := by
  unfold segment_below_boundary
  exact foldl_dims_preserved _
    (fun im (n : Node) => paintColumnUp_dims im n.1 n.2) _ img

/-- On an image with a nonnegative row count, `highest_pixel_row` is
nonnegative (it is either a scanned row index or `rows` itself). -/
theorem highest_pixel_row_nonneg (img : Image) (h : 0 ≤ img.rows) :
    0 ≤ highest_pixel_row img := by
  unfold highest_pixel_row
  split
  · omega
  · exact h

/-- When the `Rect` passes the `CV_Assert` range check, the crop is the
translated copy of the region. -/
theorem extract_bounding_box_pos (img : Image) (x y width height : ℤ)
    (h : 0 ≤ x ∧ 0 ≤ width ∧ x + width ≤ img.cols ∧
      0 ≤ y ∧ 0 ≤ height ∧ y + height ≤ img.rows) :
    extract_bounding_box img x y width height =
      some { rows := height, cols := width,
             pix := fun q => img.pix (q.1 + y, q.2 + x) } := by
  unfold extract_bounding_box
  rw [if_pos h]

/-- A nonnegative rational is at most `10 ·` the fuel `reconFuel` computes
from it. -/
theorem le_ten_mul_reconFuel {q : ℚ} (hq : 0 ≤ q) :
    q ≤ 10 * ((q.num.toNat / 10 + 1 : ℕ) : ℚ) := by
  have hnum : (0 : ℤ) ≤ q.num := Rat.num_nonneg.2 hq
  have h1 : q ≤ (q.num : ℚ) := by
    conv_lhs => rw [← Rat.num_div_den q]
    apply div_le_self
    · exact_mod_cast hnum
    · have := q.den_pos
      exact_mod_cast Nat.one_le_iff_ne_zero.2 (Nat.pos_iff_ne_zero.1 this)
  have h2 : (q.num : ℚ) = ((q.num.toNat : ℕ) : ℚ) := by
    exact_mod_cast congrArg (fun z : ℤ => (z : ℚ)) (Int.toNat_of_nonneg hnum).symm
  have h3 : (q.num.toNat : ℕ) ≤ 10 * (q.num.toNat / 10 + 1) := by omega
  calc q ≤ (q.num : ℚ) := h1
    _ = ((q.num.toNat : ℕ) : ℚ) := h2
    _ ≤ ((10 * (q.num.toNat / 10 + 1) : ℕ) : ℚ) := by exact_mod_cast h3
    _ = 10 * ((q.num.toNat / 10 + 1 : ℕ) : ℚ) := by push_cast; ring

/-! ## Inputs used by the claim theorems and witnesses -/

/-- Clearance field for the C1 run: 10 at (0,1) and 11 at (1,1), else 0. -/
def dmatC1 : Node → ℕ := fun n =>
  if n = (0, 1) then 10 else if n = (1, 1) then 11 else 0

/-- C1 failing run: 2×4 all-background grid, start (0,0), goal (0,3), step 1,
mf 1, non-MLS dataset.  Node (1,2) is first relaxed through (0,1), improved
through (1,1), and the two queue entries are both popped and expanded. -/
def aparamsC1 : AParams :=
  { map := ⟨2, 4, fun _ => 255, dmatC1⟩, start := (0, 0), goal := (0, 3),
    dataset := "saintgall", step := 1, mf := 1 }

/-- Map whose distance field is everywhere the 8-bit sentinel 255. -/
def mapC2 : Map := ⟨1, 1, fun _ => 255, fun _ => 255⟩

/-- A 1×1 grid with an out-of-grid goal: the start has no in-bounds neighbors,
so the open queue empties without reaching the goal. -/
def aparamsC3 : AParams :=
  { map := ⟨1, 1, fun _ => 255, fun _ => 0⟩, start := (0, 0), goal := (5, 5),
    dataset := "saintgall", step := 1, mf := 1 }

/-- Map for the C5 witness: ink everywhere, clearance 3. -/
def mapC5 : Map := ⟨1, 2, fun _ => 0, fun _ => 3⟩

/-- A 1×2 grid in which the goal (0,1) is reached in one step. -/
def aparamsC6 : AParams :=
  { map := ⟨1, 2, fun _ => 255, fun _ => 0⟩, start := (0, 0), goal := (0, 1),
    dataset := "saintgall", step := 1, mf := 1 }

/-- Image for the C4 out-of-bounds write: 1 row, 3 columns, all ink. -/
def imgC4 : Image := ⟨1, 3, fun _ => 0⟩

/-- Image for the C7 counterexample: 3×4, ink at (0,0) and (1,3). -/
def imgC7 : Image :=
  ⟨3, 4, fun n => if n = (0, 0) then 0 else if n = (1, 3) then 0 else 255⟩

/-- Boundary for the C7 counterexample: painting it erases the ink at (0,0),
so the topmost ink row differs before (0) and after (1) painting. -/
def bndC7 : List Node := [(0, 0), (2, 2)]

/-- Image for the C8 witness. -/
def imgC8 : Image := ⟨5, 3, fun _ => 255⟩

/-- Image for the C9 runs. -/
def imgC9 : Image := ⟨2, 2, fun _ => 255⟩

/-- Parents map for the C10 witness: (0,1) ↦ (0,0). -/
def parentsC10 : Node → Option Node := fun x =>
  if x = (0, 1) then some (0, 0) else none

/-- The closed set of a finished run. -/
def closedOf : Outcome → (Node → Bool)
  | .foundGoal st => st.closedSet
  | .exhausted st => st.closedSet
  | _ => fun _ => false

/-! ## The claims -/

/-- **C1.** The claim says a popped node is skipped when already in `closed`
and otherwise inserted into `closed`, so that no node is expanded twice in a
run.  The code declares `closedSet` but never inserts into it (in general:
`astarLoop_closedSet`): in the concrete run `aparamsC1` (which pops its goal),
node (1,2) is expanded twice, and the closed set is still empty at the end. -/
theorem C1_node_expanded_twice :
    (expandedOf (astar_search aparamsC1 30)).count ((1 : ℤ), (2 : ℤ)) = 2 ∧
    closedOf (astar_search aparamsC1 30) = fun _ => false := by
  constructor
  · with_unfolding_all rfl
  · with_unfolding_all rfl

/-- **C2.** The claim says that on a DistanceMap entry of 255 the clearance
query returns +∞ and the cost terms D and D² are 0.  The source returns
`INFINITY` through a function whose return type is `int`; that conversion has
no defined value (modelled `none`), so neither the clearance nor D, D², nor
the step cost has the claimed value at such a node. -/
theorem C2_sentinel_clearance_undefined :
    mapC2.dmat (0, 0) = 255 ∧
    closest_vertical_obstacle mapC2 (0, 0) = none ∧
    D mapC2 (0, 0) = none ∧
    compute_cost mapC2 (0, 0) (0, 0) (0, 0) "MLS" = none := by
  refine ⟨rfl, ?_, ?_, ?_⟩ <;> with_unfolding_all rfl

/-- **C3.** Whenever the open queue empties before the goal is popped (the
`exhausted` exit of the search loop), `plan` fails with `NoPathFound` and
returns no partial path. -/
theorem C3_exhausted_plan_fails (p : AParams) (fuel : ℕ)
    (h : isExhausted (astar_search p fuel) = true) :
    plan p fuel = some (Except.error PlanError.NoPathFound) := by
  cases hout : astar_search p fuel with
  | exhausted st => simp only [plan, hout]
  | foundGoal st => rw [hout] at h; simp [isExhausted] at h
  | undef => rw [hout] at h; simp [isExhausted] at h
  | outOfFuel => rw [hout] at h; simp [isExhausted] at h

theorem C3_witness :
    isExhausted (astar_search aparamsC3 3) = true ∧
    plan aparamsC3 3 = some (Except.error PlanError.NoPathFound) :=
  ⟨by with_unfolding_all rfl,
    C3_exhausted_plan_fails aparamsC3 3 (by with_unfolding_all rfl)⟩

/-- The step cost exactly as claim C5 words it, with `clearance(v)` the
DistanceMap entry at `v` (defined, non-sentinel case): `V = |row(v) − row(s)|`,
`N = 10` when `u` and `v` share a row or column else `14`, `M = 1` iff `v` is
ink, `D = 1/(1+clearance)`, `D² = 1/(1+clearance²)`, weighted
`2.5·V + 1·N + 50·M + 130·D + 0·D²` for "MLS" and
`0.5·V + 1·N + 50·M + 150·D + 50·D²` otherwise. -/
def claimStepCost (m : Map) (u v s : Node) (ds : String) : ℚ :=
  let Vv : ℚ := ((|v.1 - s.1| : ℤ) : ℚ)
  let Nv : ℚ := if u.1 = v.1 ∨ u.2 = v.2 then 10 else 14
  let Mv : ℚ := if m.grid v = 0 then 1 else 0
  let Dv : ℚ := 1 / (1 + (m.dmat v : ℚ))
  let D2v : ℚ := 1 / (1 + (m.dmat v : ℚ) ^ 2)
  if ds = "MLS" then 2.5 * Vv + 1 * Nv + 50 * Mv + 130 * Dv + 0 * D2v
  else 0.5 * Vv + 1 * Nv + 50 * Mv + 150 * Dv + 50 * D2v

/-- **C5 (counterexample).** The claim ranges over every current node,
neighbor and start.  At a neighbor whose DistanceMap entry is the sentinel
255, the claim (reading the clearance as +∞, so D = D² = 0, cf. C2)
prescribes the cost `2.5·V + 1·N + 50·M + 130·0 + 0·0`; the code's cost there
has no defined value at all (the `int`-typed `return INFINITY;`), so it is
not the prescribed one. -/
theorem C5_counterexample :
    mapC2.dmat (0, 0) = 255 ∧
    compute_cost mapC2 (0, 0) (0, 0) (0, 0) "MLS" = none ∧
    compute_cost mapC2 (0, 0) (0, 0) (0, 0) "MLS" ≠
      some (2.5 * V (0, 0) (0, 0) + 1 * N (0, 0) (0, 0) +
        50 * M mapC2 (0, 0) + 130 * 0 + 0 * 0) := by
  have hnone : compute_cost mapC2 (0, 0) (0, 0) (0, 0) "MLS" = none := by
    with_unfolding_all rfl
  refine ⟨rfl, hnone, ?_⟩
  intro h
  rw [hnone] at h
  exact Option.noConfusion h

/-- **C5 (amended).** For every current node `u`, neighbor `v` and start `s`
at which the clearance is defined (DistanceMap entry below the sentinel 255),
the step cost equals the claimed weighted formula; at sentinel entries the
code's cost is undefined (see C2 and the counterexample). -/
theorem C5_cost_formula (m : Map) (u v s : Node) (ds : String)
    (hv : m.dmat v < 255) :
    compute_cost m u v s ds = some (claimStepCost m u v s ds) := by
  have hM : M m v = if m.grid v = 0 then 1 else 0 := by
    unfold M is_wall
    by_cases h0 : m.grid v = 0
    · simp [h0]
    · simp [h0]
  unfold compute_cost D closest_vertical_obstacle
  rw [if_pos hv]
  simp only [Option.map_some', Option.some.injEq]
  unfold claimStepCost V N
  rw [hM]

theorem C5_witness :
    mapC5.dmat (0, 1) < 255 ∧
    compute_cost mapC5 (0, 0) (0, 1) (0, 0) "MLS" =
      some (claimStepCost mapC5 (0, 0) (0, 1) (0, 0) "MLS") ∧
    claimStepCost mapC5 (0, 0) (0, 1) (0, 0) "MLS" = 60 + 130 / 4 :=
  ⟨by decide, C5_cost_formula mapC5 (0, 0) (0, 1) (0, 0) "MLS" (by decide),
    by with_unfolding_all rfl⟩

/-- **C6.** Every successful plan run (the goal is popped) returns a non-empty
path from `start` to `goal` whose consecutive nodes are step-scaled neighbors;
when `start = goal` the path is exactly `[start]`. -/
theorem C6_plan_path_valid (p : AParams) (fuel : ℕ) (path : List Node)
    (h : plan p fuel = some (Except.ok path)) :
    path ≠ [] ∧ path.head? = some p.start ∧ path.getLast? = some p.goal ∧
      List.Chain' (fun u v => v ∈ neighbors p.map u p.step) path ∧
      (p.start = p.goal → path = [p.start]) := by
  cases hout : astar_search p fuel with
  | exhausted st =>
    simp only [plan, hout] at h
    injection h with h2
    exact Except.noConfusion h2
  | undef =>
    simp only [plan, hout] at h
    exact Option.noConfusion h
  | outOfFuel =>
    simp only [plan, hout] at h
    exact Option.noConfusion h
  | foundGoal st =>
    simp only [plan, hout, Option.some.injEq, Except.ok.injEq] at h
    have hout' : astarLoop p fuel (initState p) = Outcome.foundGoal st := hout
    obtain ⟨hinv, hgoal⟩ := astarLoop_inv fuel (initState_inv p) hout'
    obtain ⟨q, hq⟩ := Option.ne_none_iff_exists'.1 hgoal
    have hq0 : 0 ≤ q := hinv.g_nonneg _ _ hq
    obtain ⟨k, hk, hreach, hchain⟩ :=
      chain_reaches_start hinv (q.num.toNat / 10 + 1) p.goal q hq
        (le_ten_mul_reconFuel hq0)
    have hex : ∃ j, (parentStep st.parents)^[j] p.goal = p.start := ⟨k, hreach⟩
    have hmin : ∀ j, j < Nat.find hex →
        (parentStep st.parents)^[j] p.goal ≠ p.start :=
      fun j hj => Nat.find_min hex hj
    have hkle : Nat.find hex ≤ k := Nat.find_min' hex hreach
    have hfuel2 : Nat.find hex ≤ reconFuel (st.gscore p.goal) := by
      rw [hq]
      simp only [reconFuel]
      omega
    obtain ⟨hpath, hhead, hlast, hne⟩ :=
      reconstruct_path_spec (Nat.find_spec hex) hmin hfuel2
    subst h
    refine ⟨hne, hhead, hlast, ?_, ?_⟩
    · rw [hpath, List.chain'_reverse, List.chain'_map, List.chain'_range_succ]
      intro m hm
      exact hinv.parent_nb _ _ (hchain m (lt_of_lt_of_le hm hkle))
    · intro hsg
      have h0 : Nat.find hex = 0 := by
        rw [Nat.find_eq_zero]
        exact hsg.symm
      rw [hpath, h0]
      simp [hsg]

theorem C6_witness :
    ([((0 : ℤ), (0 : ℤ)), ((0 : ℤ), (1 : ℤ))] : List Node) ≠ [] ∧
    ([((0 : ℤ), (0 : ℤ)), ((0 : ℤ), (1 : ℤ))] : List Node).head? =
      some aparamsC6.start ∧
    ([((0 : ℤ), (0 : ℤ)), ((0 : ℤ), (1 : ℤ))] : List Node).getLast? =
      some aparamsC6.goal ∧
    List.Chain'
      (fun u v => v ∈ neighbors aparamsC6.map u aparamsC6.step)
      [((0 : ℤ), (0 : ℤ)), ((0 : ℤ), (1 : ℤ))] ∧
    (aparamsC6.start = aparamsC6.goal →
      ([((0 : ℤ), (0 : ℤ)), ((0 : ℤ), (1 : ℤ))] : List Node) =
        [aparamsC6.start]) :=
  C6_plan_path_valid aparamsC6 5 [(0, 0), (0, 1)] (by with_unfolding_all rfl)

/-- **C4.** The claim says the painters write only at columns `c` and, when in
bounds, `c+1`, never outside the image.  The source's guard `col < cols` is
vacuous for in-bounds nodes, so for a boundary node in the last column
(`c = cols − 1`, here (0,2) with `cols = 3`) both painters write at column
`cols`, outside the image (the untouched value there was 0). -/
theorem C4_last_column_write_out_of_bounds :
    ((0 : ℤ), (2 : ℤ)).2 < imgC4.cols ∧
    (segment_above_boundary imgC4 [(0, 2)]).pix (0, imgC4.cols) = 255 ∧
    (segment_below_boundary imgC4 [(0, 2)]).pix (0, imgC4.cols) = 255 ∧
    imgC4.pix (0, imgC4.cols) = 0 := by
  refine ⟨by decide, ?_, ?_, rfl⟩ <;> with_unfolding_all rfl

/-- **C7 (counterexample).** The claim crops from the topmost ink row of the
painted image; the code reads `highest_pixel_row` before painting.  On `imgC7`
with boundary `bndC7` the painted image's topmost ink row is 1 but the code
crops from row 0, so the code's crop has 2 rows where the claim's has 1. -/
theorem C7_counterexample :
    highest_pixel_row imgC7 = 0 ∧
    highest_pixel_row (segment_above_boundary imgC7 bndC7) = 1 ∧
    (segment_text_line_single imgC7 true bndC7).map Image.rows = some 2 ∧
    (segment_text_line_lower_claim imgC7 bndC7).map Image.rows = some 1 ∧
    segment_text_line_single imgC7 true bndC7 ≠
      segment_text_line_lower_claim imgC7 bndC7 := by
  refine ⟨by with_unfolding_all rfl, by with_unfolding_all rfl,
    by with_unfolding_all rfl, by with_unfolding_all rfl, ?_⟩
  intro h
  have h1 : (segment_text_line_single imgC7 true bndC7).map Image.rows =
      some 2 := by with_unfolding_all rfl
  have h2 : (segment_text_line_lower_claim imgC7 bndC7).map Image.rows =
      some 1 := by with_unfolding_all rfl
  rw [h, h2] at h1
  exact absurd (Option.some.inj h1) (by decide)

/-- **C7 (amended).** In single-boundary mode with role = lower, whenever the
crop rectangle passes the `Mat` range check (nonnegative dimensions, topmost
ink row of the unpainted image at most `max(row)` over the boundary, which in
turn is within the image), the projector crops from the topmost ink row of
the image as it is BEFORE the boundary is painted, down to `max(row)` over
the boundary, spanning the full width; otherwise the `Rect` constructor
throws and no image is produced. -/
theorem C7_single_lower_crop (img : Image) (boundary : List Node)
    (hb : boundary ≠ []) (hrows : 0 ≤ img.rows) (hcols : 0 ≤ img.cols)
    (hink : highest_pixel_row img ≤ maxRow boundary)
    (hmax : maxRow boundary ≤ img.rows) :
    ∃ out, segment_text_line_single img true boundary = some out ∧
      out.rows = maxRow boundary - highest_pixel_row img ∧
      out.cols = img.cols ∧
      ∀ rc : Node, out.pix rc =
        (segment_above_boundary img boundary).pix
          (rc.1 + highest_pixel_row img, rc.2) := by
  obtain ⟨hdr, hdc⟩ := segment_above_boundary_dims img boundary
  have hy : 0 ≤ highest_pixel_row img := highest_pixel_row_nonneg img hrows
  simp only [segment_text_line_single, if_true,
    lowest_boundary_pos_eq_maxRow boundary hb]
  exact ⟨_, extract_bounding_box_pos _ _ _ _ _
      ⟨le_refl 0, hcols, by rw [hdc]; linarith, hy, by linarith,
        by rw [hdr]; linarith⟩,
    rfl, rfl, fun rc => by simp⟩

theorem C7_witness :
    ∃ out, segment_text_line_single imgC7 true bndC7 = some out ∧
      out.rows = maxRow bndC7 - highest_pixel_row imgC7 ∧
      out.cols = imgC7.cols ∧
      ∀ rc : Node, out.pix rc =
        (segment_above_boundary imgC7 bndC7).pix
          (rc.1 + highest_pixel_row imgC7, rc.2) :=
  C7_single_lower_crop imgC7 bndC7 (by decide) (by decide)
    (by decide) (by with_unfolding_all decide) (by with_unfolding_all decide)

/-- **C8 (counterexample).** The claim promises a band of height
`max_row(lower) − min_row(upper)` for every pair of non-empty paths.  When
the lower path lies above the upper one, that height is negative; the `Rect`
range check `CV_Assert(... 0 <= roi.height ...)` in the `Mat` ROI
constructor then throws and no image is produced.  On the 5×3 image with
lower path [(1,0)] and upper path [(3,0)] the promised height is −2 and the
projector produces nothing. -/
theorem C8_counterexample :
    maxRow ([(1, 0)] : List Node) - minRow ([(3, 0)] : List Node) = -2 ∧
    segment_text_line imgC8 [(1, 0)] [(3, 0)] = none := by
  exact ⟨by decide, by with_unfolding_all rfl⟩

/-- **C8 (amended).** For non-empty upper and lower boundary paths whose crop
rectangle passes the `Mat` range check (0 ≤ min_row(upper) ≤ max_row(lower)
≤ rows and a nonnegative width), the two-boundary projector crops the band
starting at row `min_row(upper)`, of height exactly
`max_row(lower) − min_row(upper)`, spanning the full image width; otherwise
the `Rect` constructor throws and no image is produced. -/
theorem C8_two_boundary_crop (img : Image) (lower upper : List Node)
    (hL : lower ≠ []) (hU : upper ≠ []) (hcols : 0 ≤ img.cols)
    (htop : 0 ≤ minRow upper) (hband : minRow upper ≤ maxRow lower)
    (hbot : maxRow lower ≤ img.rows) :
    ∃ out, segment_text_line img lower upper = some out ∧
      out.rows = maxRow lower - minRow upper ∧
      out.cols = img.cols ∧
      ∀ rc : Node, out.pix rc =
        (segment_below_boundary (segment_above_boundary img lower) upper).pix
          (rc.1 + minRow upper, rc.2) := by
  obtain ⟨har, hac⟩ := segment_above_boundary_dims img lower
  obtain ⟨hbr, hbc⟩ :=
    segment_below_boundary_dims (segment_above_boundary img lower) upper
  simp only [segment_text_line, highest_boundary_pos_eq_minRow upper hU,
    lowest_boundary_pos_eq_maxRow lower hL]
  exact ⟨_, extract_bounding_box_pos _ _ _ _ _
      ⟨le_refl 0, hcols, by rw [hbc, hac]; linarith, htop, by linarith,
        by rw [hbr, har]; linarith⟩,
    rfl, rfl, fun rc => by simp⟩

theorem C8_witness :
    ∃ out, segment_text_line imgC8 [(3, 0), (4, 1)] [(1, 0), (0, 2)] =
        some out ∧
      out.rows = maxRow [(3, 0), (4, 1)] - minRow [(1, 0), (0, 2)] ∧
      out.cols = imgC8.cols ∧
      ∀ rc : Node, out.pix rc =
        (segment_below_boundary
          (segment_above_boundary imgC8 [(3, 0), (4, 1)]) [(1, 0), (0, 2)]).pix
          (rc.1 + minRow [(1, 0), (0, 2)], rc.2) :=
  C8_two_boundary_crop imgC8 [(3, 0), (4, 1)] [(1, 0), (0, 2)] (by decide)
    (by decide) (by decide) (by decide) (by decide) (by decide)

/-- **C9.** The claim says a zero-length boundary makes the projector fail
with `EmptyBoundary` and produce no image.  The code has no such error: on an
empty boundary the reference-row helpers return an uninitialized value
(undefined, modelled `none`), and the projector's result is undefined rather
than a surfaced `EmptyBoundary` error. -/
theorem C9_empty_boundary_undefined :
    lowest_boundary_pos ([] : List Node) = none ∧
    highest_boundary_pos ([] : List Node) = none ∧
    segment_text_line_single imgC9 true [] = none ∧
    segment_text_line_single imgC9 false [] = none ∧
    segment_text_line imgC9 [] [] = none := by
  refine ⟨rfl, rfl, ?_, ?_, rfl⟩ <;> with_unfolding_all rfl

/-- **C10.** If iterating the parents map from `goal` reaches `start` in `k`
steps (and not earlier), then for every fuel `≥ k` the reconstruction loop
terminates with the reversed parent chain, a list beginning at `start` and
ending at `goal`. -/
theorem C10_reconstruct_returns_chain (parents : Node → Option Node)
    (start goal : Node) (k fuel : ℕ)
    (hreach : (parentStep parents)^[k] goal = start)
    (hmin : ∀ j, j < k → (parentStep parents)^[j] goal ≠ start)
    (hfuel : k ≤ fuel) :
    reconstruct_path start goal parents fuel =
      ((List.range (k + 1)).map
        (fun j => (parentStep parents)^[j] goal)).reverse ∧
    (reconstruct_path start goal parents fuel).head? = some start ∧
    (reconstruct_path start goal parents fuel).getLast? = some goal := by
  obtain ⟨h1, h2, h3, -⟩ := reconstruct_path_spec hreach hmin hfuel
  exact ⟨h1, h2, h3⟩

theorem C10_witness :
    reconstruct_path (0, 0) (0, 1) parentsC10 5 =
      ((List.range 2).map
        (fun j => (parentStep parentsC10)^[j] (0, 1))).reverse ∧
    (reconstruct_path (0, 0) (0, 1) parentsC10 5).head? = some (0, 0) ∧
    (reconstruct_path (0, 0) (0, 1) parentsC10 5).getLast? = some (0, 1) :=
  C10_reconstruct_returns_chain parentsC10 (0, 0) (0, 1) 1 5 (by decide)
    (by
      intro j hj
      have hj0 : j = 0 := by omega
      subst hj0
      decide)
    (by omega)

end LineSegm
